import Mathlib

/-!
A verification development for the responsive-state reducer module
(`src/util/createResponsiveStateReducer.js`).

The JavaScript module is shallowly embedded as follows:

* A JS plain object is an association list `Obj β := List (String × β)`
  whose entries appear in the object's key-iteration order (breakpoint
  names are non-integer string keys, so that is insertion order); keys of
  a real JS object are pairwise distinct, which theorems assume as a
  `Nodup` hypothesis where it matters.
* A breakpoint value is `BpVal`: a finite number, the JS `Infinity`
  (`typeof` both is `'number'`), or a string (any non-numeric value in the
  sense of the module's `typeof v === 'number'` checks).
* `undefined`-producing property reads become the `Option`-valued `jsGet`.
* lodash `transform` over an object, where the callback assigns exactly
  `result[key]`, becomes `transformObj`, which rebuilds the object with
  the same keys in the same order.
* lodash `reduce` becomes `List.foldl` over the entries in object order.
* `Array.prototype.sort` (stable, and the comparator below returns only
  `-1`/`1`) becomes the stable left-to-right insertion sort `stableSort`:
  each element is inserted behind every earlier element the comparator
  does not strictly order it before, so ties keep the original order,
  matching stable-sort semantics for this comparator.
* The caller-supplied `window.matchMedia` evaluator is
  `Option (String → Bool)`: `none` is `undefined` (no window), and
  `matchMedia(q).matches` is the function applied to the query string.
-/

/-- A JS plain object with values of type `β`: entries in key-iteration
order. -/
abbrev Obj (β : Type) := List (String × β)

/-- JS property read `o[k]`: the value at the first entry whose key is
`k`, or `none` (`undefined`). -/
def jsGet : Obj β → String → Option β
  | [], _ => none
  | p :: t, k => if p.1 == k then some p.2 else jsGet t k

/-- A breakpoint value: a finite number, the JS `Infinity`, or a string
(non-numeric). -/
inductive BpVal where
  | num (n : Int)
  | inf
  | str (s : String)
  deriving DecidableEq, Repr

/-- `typeof v === 'number'` for a breakpoint value (`Infinity` is a
number in JS). -/
def isNum : BpVal → Bool
  | .num _ => true
  | .inf => true
  | .str _ => false

/-- Whether a breakpoint value is a finite number. -/
def BpVal.isFiniteNum : BpVal → Bool
  | .num _ => true
  | _ => false

/-- JS truthiness of a breakpoint value (`0` and `""` are falsy,
`Infinity` is truthy). -/
def bpTruthy : BpVal → Bool
  | .num n => n != 0
  | .inf => true
  | .str s => s != ""

/-- JS truthiness of a possibly-`undefined` breakpoint value. -/
def bpTruthyOpt : Option BpVal → Bool
  | some v => bpTruthy v
  | none => false

/-- JS truthiness of a possibly-`undefined` rank (a rank of `0` is
falsy). -/
def natTruthy : Option Nat → Bool
  | some n => n != 0
  | none => false

/-- JS `a < b` on two possibly-`undefined` ranks: any `undefined`
operand makes the comparison `false` (NaN semantics). -/
def jsLtNum : Option Nat → Option Nat → Bool
  | some a, some b => a < b
  | _, _ => false

/-- JS `a > b` on two possibly-`undefined` ranks: any `undefined`
operand makes the comparison `false` (NaN semantics). -/
def jsGtNum : Option Nat → Option Nat → Bool
  | some a, some b => b < a
  | _, _ => false

/-- JS `valueA >= valueB` between two breakpoint values.  The comparator
in `getOrderMap` only reaches this for two numbers or two strings; the
mixed cases are written out with their JS results (string coerced to
`NaN`, so `false`) but are unreachable from `bpCmp`. -/
def bpGE : BpVal → BpVal → Bool
  | .num a, .num b => a ≥ b
  | .num _, .inf => false
  | .inf, .num _ => true
  | .inf, .inf => true
  | .str a, .str b => !decide (a < b)
  | .num _, .str _ => false
  | .inf, .str _ => false
  | .str _, .num _ => false
  | .str _, .inf => false

/-- The three-way comparator of `getOrderMap`'s key sort, on the two
looked-up breakpoint values: a number sorts before a string; otherwise
`valueA >= valueB ? 1 : -1`. -/
def bpCmp (a b : BpVal) : Int :=
  if isNum a && !isNum b then -1
  else if isNum b && !isNum a then 1
  else if bpGE a b then 1 else -1

/-- `a` sorts strictly before `b`: the comparator returns a negative
number on the associated values. -/
def bpLt (p q : String × BpVal) : Bool := bpCmp p.2 q.2 < 0

/-- Insert `x` into `l` directly before the first element `y` with
`lt x y`; `x` ends up after every element it does not strictly precede
(so after elements it ties with — stability). -/
def insertBefore (lt : α → α → Bool) (x : α) : List α → List α
  | [] => [x]
  | y :: ys => if lt x y then x :: y :: ys else y :: insertBefore lt x ys

/-- Stable sort by repeated insertion, processing the input left to
right.  Models `Array.prototype.sort` for the comparator of
`getOrderMap` (which returns only `-1`/`1`): equal-comparing elements
keep their original relative order. -/
def stableSort (lt : α → α → Bool) (l : List α) : List α :=
  l.foldl (fun acc x => insertBefore lt x acc) []

/-- JS `Array.prototype.indexOf` restricted to the keys of an object's
entry list: the index of the first entry with the given key, or `none`
(`-1`). -/
def indexOf? (k : String) : Obj β → Option Nat
  | [] => none
  | p :: t => if p.1 == k then some 0 else (indexOf? k t).map (· + 1)

/-- lodash `transform` over an object whose callback assigns exactly
`result[key] = g key value`: the same keys in the same order, each value
recomputed. -/
def transformObj (g : String → β → γ) (l : Obj β) : Obj γ :=
  l.map fun p => (p.1, g p.1 p.2)

/-- JS object spread `{...base, ...extra}`: the keys of `base` in base
order with values overridden by `extra` where present, then the keys of
`extra` absent from `base`, in extra order. -/
def spreadMerge (base extra : Obj β) : Obj β :=
  (base.map fun p => (p.1, (jsGet extra p.1).getD p.2))
    ++ extra.filter fun q => !(base.any fun p => p.1 == q.1)

/-- JS property assignment `o[k] = v`: replace the value at an existing
key (keeping its position), else append the new key. -/
def setKey : Obj β → String → β → Obj β
  | [], k, v => [(k, v)]
  | p :: t, k, v => if p.1 == k then (k, v) :: t else p :: setKey t k v

/-- `defaultBreakpoints` from the source: the four-tier default set. -/
def defaultBreakpoints : Obj BpVal :=
  [("extraSmall", .num 480), ("small", .num 768), ("medium", .num 992), ("large", .num 1200)]

/-- `defaultMediaType` from the source: the media type used when no
`window` is present. -/
def defaultMediaType : String := "infinity"

/-- `defaultOrientation` from the source: the orientation used when no
`window` is present (`null`). -/
def defaultOrientation : Option String := none

/-- Modelled from the spec: the action-type sentinel
`CALCULATE_RESPONSIVE_STATE` lives in `src/actions/types`, outside the
provided source; only its identity matters to the reducer, so it is
modelled as a fixed string. -/
def CALCULATE_RESPONSIVE_STATE : String := "CALCULATE_RESPONSIVE_STATE"

/-- The sorted key sequence built inside `getOrderMap`
(`Object.keys(bps).sort(comparator)`), carried as the full entries so the
comparator can read each key's value (`bps[a]`, `bps[b]`); keys of a JS
object are distinct, so sorting entries and sorting keys agree. -/
def sortedBreakpoints (bps : Obj BpVal) : Obj BpVal :=
  stableSort bpLt bps

/-- `getOrderMap` from the source: sort the keys with the three-way
comparator, then `transform` the breakpoint object, assigning each key
its index in the sorted key list when `indexOf` finds it (`index !== -1`,
mirrored by `filterMap` over the `Option` index). -/
def getOrderMap (bps : Obj BpVal) : Obj Nat :=
  bps.filterMap fun p => (indexOf? p.1 (sortedBreakpoints bps)).map fun i => (p.1, i)

/-- `getLessThan` from the source.  It is applied to the order map, so
the iterated value `breakpoint` is a rank and `typeof breakpoint ===
'number'` always holds; the surviving guard is the JS truthiness of
`breakpointOrder[mediaType]` (a rank of `0` is falsy), and the stored
entry is `currentOrder < breakpointOrder[mediaType]` (false when
`currentOrder` is `undefined`). -/
def getLessThan (currentMediaType : String) (breakpointOrder : Obj Nat) : Obj Bool :=
  let currentOrder := jsGet breakpointOrder currentMediaType
  transformObj (fun mediaType _breakpoint =>
      if natTruthy (jsGet breakpointOrder mediaType) then
        jsLtNum currentOrder (jsGet breakpointOrder mediaType)
      else false)
    breakpointOrder

/-- `getIs` from the source: iterates the raw breakpoint config; an
entry is `mediaType === currentMediaType` when its value is a number and
`breakpoints[mediaType]` is truthy, else `false`. -/
def getIs (currentMediaType : String) (breakpoints : Obj BpVal) : Obj Bool :=
  transformObj (fun mediaType breakpoint =>
      if isNum breakpoint && bpTruthyOpt (jsGet breakpoints mediaType) then
        mediaType == currentMediaType
      else false)
    breakpoints

/-- `getGreaterThan` from the source.  It is applied to the order map,
so `typeof breakpoint === 'number'` always holds and the `else` branch is
unreachable; the stored entry is `currentOrder > breakpointOrder[mediaType]`
(false when `currentOrder` is `undefined`); unlike `getLessThan` there is
no truthiness guard. -/
def getGreaterThan (currentMediaType : String) (breakpointOrder : Obj Nat) : Obj Bool :=
  let currentOrder := jsGet breakpointOrder currentMediaType
  transformObj (fun mediaType _breakpoint =>
      jsGtNum currentOrder (jsGet breakpointOrder mediaType))
    breakpointOrder

/-- `getMediaType` from the source: without a `matchMedia` capability
return the infinity media type; otherwise `reduce` over the media
queries in object order, the accumulator starting at the infinity media
type and each matching query overwriting it (last match wins). -/
def getMediaType (matchMedia : Option (String → Bool)) (mediaQueries : Obj String)
    (infinityMediaType : String) : String :=
  match matchMedia with
  | none => infinityMediaType
  | some mm =>
    mediaQueries.foldl (fun result p => if mm p.2 then p.1 else result) infinityMediaType

/-- `getOrientation` from the source: without a `matchMedia` capability
return the default (`null`); otherwise the same last-match-wins `reduce`
over the two fixed orientation queries, starting from `null`. -/
def getOrientation (matchMedia : Option (String → Bool)) : Option String :=
  match matchMedia with
  | none => defaultOrientation
  | some mm =>
    let mediaQueries : Obj String :=
      [("portrait", "(orientation: portrait)"), ("landscape", "(orientation: landscape)")]
    mediaQueries.foldl (fun result p => if mm p.2 then some p.1 else result) defaultOrientation

/-- A value of the assembled state object: the `_responsiveState`
marker, a media-type string, `null`, one of the three boolean maps, the
breakpoint config, or a caller-supplied extra field (extra fields in the
covered claims are strings). -/
inductive JVal where
  | bool (b : Bool)
  | str (s : String)
  | nullv
  | boolMap (m : Obj Bool)
  | bps (m : Obj BpVal)
  deriving DecidableEq, Repr

/-- `null` vs a string, as stored in the `orientation` field. -/
def jsNullable : Option String → JVal
  | some s => .str s
  | none => .nullv

/-- JS truthiness of a possibly-`undefined` string (`""` is falsy). -/
def strTruthy : Option String → Bool
  | some s => s != ""
  | none => false

/-- The reducer factory's options object
`{ initialMediaType, infinity = defaultMediaType, extraFields = () => ({}) }`. -/
structure Options where
  initialMediaType : Option String := none
  infinity : String := defaultMediaType
  extraFields : Obj JVal → Obj JVal := fun _ => []

/-- The dispatched event `{type, matchMedia}`; `matchMedia` is the
optional query-evaluator capability. -/
structure Event where
  type : String
  matchMedia : Option (String → Bool) := none

/-- Modelled from the spec: the third-party `MediaQuery.asObject`
(npm `mediaquery`, not part of this repository) builds one media-query
string per breakpoint name; the reducer never inspects the strings
itself, it only hands them to the caller's evaluator, so their exact
text is irrelevant to every claim and a symbolic string per key is
built. -/
def mediaQueryAsObject (bps : Obj BpVal) : Obj String :=
  bps.map fun p => (p.1, "(media query for " ++ p.1 ++ ")")

/-- The factory's construction-time mutation of the breakpoint config:
substitute the defaults for a falsy (`null`/`undefined`) argument, then
`breakpoints[infinity] = Infinity`. -/
def augmentBreakpoints (bps0 : Option (Obj BpVal)) (infinityKey : String) : Obj BpVal :=
  setKey (match bps0 with | none => defaultBreakpoints | some b => b) infinityKey .inf

/-- The `responsiveState` object literal assembled inside the reducer:
`mediaType` comes from `initialMediaType` verbatim on the very first call
when that option is truthy, otherwise from `getMediaType`; the fields
appear in the source's literal order. -/
def buildResponsiveState (breakpoints : Obj BpVal) (mediaQueries : Obj String)
    (mediaOrdering : Obj Nat) (o : Options) (state : Option (Obj JVal)) (ev : Event) :
    Obj JVal :=
  let mediaType :=
    if state.isNone && strTruthy o.initialMediaType then o.initialMediaType.getD ""
    else getMediaType ev.matchMedia mediaQueries o.infinity
  let orientation := getOrientation ev.matchMedia
  [("_responsiveState", JVal.bool true),
   ("lessThan", JVal.boolMap (getLessThan mediaType mediaOrdering)),
   ("greaterThan", JVal.boolMap (getGreaterThan mediaType mediaOrdering)),
   ("is", JVal.boolMap (getIs mediaType breakpoints)),
   ("mediaType", JVal.str mediaType),
   ("orientation", jsNullable orientation),
   ("breakpoints", JVal.bps breakpoints)]

/-- The base state computed on a recalculating invocation, with the
construction-time values (`breakpoints`, `mediaQueries`, `mediaOrdering`)
spelled out; `asObject` stands for the external `MediaQuery.asObject`. -/
def reducerBase (asObject : Obj BpVal → Obj String) (bps0 : Option (Obj BpVal))
    (o : Options) (state : Option (Obj JVal)) (ev : Event) : Obj JVal :=
  buildResponsiveState (augmentBreakpoints bps0 o.infinity)
    (asObject (augmentBreakpoints bps0 o.infinity))
    (getOrderMap (augmentBreakpoints bps0 o.infinity)) o state ev

/-- The default export: the reducer factory applied to its arguments and
then to `(state, {type, matchMedia})`.  The closure-captured
construction state is written out through `reducerBase`.  Recalculate
when the event type is the sentinel or the state is still `undefined`;
spread the caller's extra fields over the computed state; otherwise
return the previous state unchanged. -/
def createResponsiveStateReducer (asObject : Obj BpVal → Obj String)
    (bps0 : Option (Obj BpVal)) (o : Options)
    (state : Option (Obj JVal)) (ev : Event) : Obj JVal :=
  if ev.type == CALCULATE_RESPONSIVE_STATE || state.isNone then
    spreadMerge (reducerBase asObject bps0 o state ev)
      (o.extraFields (reducerBase asObject bps0 o state ev))
  else state.getD []


/-! ### Association-list lemmas -/

/-- `jsGet` of the entry's own key, at the head. -/
theorem jsGet_cons_self {β : Type} (k : String) (v : β) (t : Obj β) :
    jsGet ((k, v) :: t) k = some v := by
  simp [jsGet]

/-- `jsGet` skips a head entry with a different key. -/
theorem jsGet_cons_ne {β : Type} {k : String} {p : String × β} (h : (p.1 == k) = false)
    (t : Obj β) : jsGet (p :: t) k = jsGet t k := by
  simp [jsGet, h]

/-- In an object with distinct keys, every entry is found by `jsGet` of
its key. -/
theorem jsGet_of_nodup {β : Type} :
    ∀ (l : Obj β), (l.map Prod.fst).Nodup → ∀ p ∈ l, jsGet l p.1 = some p.2 := by
  intro l
  induction l with
  | nil => intro _ p hp; cases hp
  | cons q t ih =>
    intro hnd p hp
    rw [List.map_cons, List.nodup_cons] at hnd
    rcases List.mem_cons.mp hp with he | hpt
    · subst he
      simp [jsGet]
    · have hne : (q.1 == p.1) = false := by
        apply beq_eq_false_iff_ne.mpr
        intro he
        exact hnd.1 (he ▸ List.mem_map_of_mem Prod.fst hpt)
      rw [jsGet_cons_ne hne]
      exact ih hnd.2 p hpt

/-- `jsGet` over a key-preserving `transformObj` rewrites the looked-up
value with the callback at the looked-up key. -/
theorem jsGet_transformObj {β γ : Type} (g : String → β → γ) :
    ∀ (l : Obj β) (k : String), jsGet (transformObj g l) k = (jsGet l k).map (g k) := by
  intro l
  induction l with
  | nil => intro k; rfl
  | cons p t ih =>
    intro k
    by_cases h : (p.1 == k) = true
    · have he : p.1 = k := beq_iff_eq.mp h
      simp [transformObj, jsGet, h, he]
    · have h' : (p.1 == k) = false := by simpa using h
      simp only [transformObj, List.map_cons]
      rw [jsGet_cons_ne (p := (p.1, g p.1 p.2)) h', jsGet_cons_ne h']
      exact ih k

/-- `jsGet` on an append, when the key is found on the left. -/
theorem jsGet_append_some {β : Type} {l1 l2 : Obj β} {k : String} {v : β}
    (h : jsGet l1 k = some v) : jsGet (l1 ++ l2) k = some v := by
  induction l1 with
  | nil => cases h
  | cons p t ih =>
    rw [List.cons_append]
    by_cases hk : (p.1 == k) = true
    · simp only [jsGet, hk, if_true] at h ⊢
      exact h
    · have h' : (p.1 == k) = false := by simpa using hk
      rw [jsGet_cons_ne h'] at h
      rw [jsGet_cons_ne h']
      exact ih h

/-- `jsGet` on an append, when the key is absent on the left. -/
theorem jsGet_append_none {β : Type} {l1 l2 : Obj β} {k : String}
    (h : jsGet l1 k = none) : jsGet (l1 ++ l2) k = jsGet l2 k := by
  induction l1 with
  | nil => rfl
  | cons p t ih =>
    rw [List.cons_append]
    by_cases hk : (p.1 == k) = true
    · simp only [jsGet, hk, if_true] at h
      cases h
    · have h' : (p.1 == k) = false := by simpa using hk
      rw [jsGet_cons_ne h'] at h
      rw [jsGet_cons_ne h']
      exact ih h

/-- A key that `jsGet` does not find fails every `any` test on the
keys. -/
theorem any_eq_false_of_jsGet_none {β : Type} :
    ∀ (l : Obj β) (k : String), jsGet l k = none → (l.any fun p => p.1 == k) = false := by
  intro l
  induction l with
  | nil => intro _ _; rfl
  | cons p t ih =>
    intro k h
    by_cases hk : (p.1 == k) = true
    · simp only [jsGet, hk, if_true] at h
      cases h
    · have h' : (p.1 == k) = false := by simpa using hk
      rw [jsGet_cons_ne h'] at h
      simp [List.any_cons, h', ih k h]

/-- `jsGet` through a filter whose predicate only reads the key. -/
theorem jsGet_filter_key {β : Type} (f : String → Bool) :
    ∀ (l : Obj β) (k : String),
      jsGet (l.filter fun q => f q.1) k = if f k then jsGet l k else none := by
  intro l
  induction l with
  | nil => intro k; cases hf : f k <;> simp [jsGet, hf]
  | cons p t ih =>
    intro k
    by_cases hk : (p.1 == k) = true
    · have he : p.1 = k := beq_iff_eq.mp hk
      subst he
      cases hf : f p.1
      · simp only [List.filter_cons, hf, Bool.false_eq_true, if_false]
        rw [ih p.1]
        simp [hf]
      · simp only [List.filter_cons, hf, if_true]
        simp [jsGet, hf]
    · have h' : (p.1 == k) = false := by simpa using hk
      cases hf : f p.1
      · simp only [List.filter_cons, hf, Bool.false_eq_true, if_false]
        rw [ih k, jsGet_cons_ne h']
      · simp only [List.filter_cons, hf, if_true]
        rw [jsGet_cons_ne h', ih k, jsGet_cons_ne h']

/-- Assigning a key makes it the `jsGet` result. -/
theorem jsGet_setKey_self {β : Type} :
    ∀ (l : Obj β) (k : String) (v : β), jsGet (setKey l k v) k = some v := by
  intro l
  induction l with
  | nil => intro k v; simp [setKey, jsGet]
  | cons p t ih =>
    intro k v
    by_cases hp : (p.1 == k) = true
    · simp only [setKey, hp, if_true]
      exact jsGet_cons_self k v t
    · have h' : (p.1 == k) = false := by simpa using hp
      simp only [setKey, h', Bool.false_eq_true, if_false]
      rw [jsGet_cons_ne h']
      exact ih k v

/-! ### Stable-sort lemmas -/

/-- Membership through an insertion. -/
theorem mem_insertBefore {lt : α → α → Bool} {x z : α} :
    ∀ {l : List α}, z ∈ insertBefore lt x l → z = x ∨ z ∈ l := by
  intro l
  induction l with
  | nil =>
    intro h
    simp only [insertBefore, List.mem_singleton] at h
    exact Or.inl h
  | cons y ys ih =>
    intro h
    simp only [insertBefore] at h
    by_cases hxy : lt x y = true
    · rw [if_pos hxy] at h
      rcases List.mem_cons.mp h with he | h2
      · exact Or.inl he
      · exact Or.inr h2
    · rw [if_neg hxy] at h
      rcases List.mem_cons.mp h with he | h2
      · exact Or.inr (he ▸ List.mem_cons_self y ys)
      · rcases ih h2 with he | h3
        · exact Or.inl he
        · exact Or.inr (List.mem_cons_of_mem y h3)

/-- An insertion is a permutation of consing. -/
theorem insertBefore_perm (lt : α → α → Bool) (x : α) :
    ∀ (l : List α), List.Perm (insertBefore lt x l) (x :: l) := by
  intro l
  induction l with
  | nil => simp [insertBefore]
  | cons y ys ih =>
    simp only [insertBefore]
    by_cases hxy : lt x y = true
    · rw [if_pos hxy]
    · rw [if_neg hxy]
      exact (ih.cons y).trans (List.Perm.swap x y ys)

/-- The insertion fold is a permutation of the input followed by the
accumulator. -/
theorem stableSort_foldl_perm (lt : α → α → Bool) :
    ∀ (l acc : List α),
      List.Perm (List.foldl (fun acc x => insertBefore lt x acc) acc l) (l ++ acc) := by
  intro l
  induction l with
  | nil => intro acc; rfl
  | cons x t ih =>
    intro acc
    rw [List.foldl_cons, List.cons_append]
    refine (ih (insertBefore lt x acc)).trans ?_
    refine (List.Perm.append_left t (insertBefore_perm lt x acc)).trans ?_
    exact List.perm_middle

/-- The stable sort permutes its input. -/
theorem stableSort_perm (lt : α → α → Bool) (l : List α) : List.Perm (stableSort lt l) l := by
  have h := stableSort_foldl_perm lt l []
  simpa [stableSort] using h

/-- Inserting an element keeps a `Pairwise` invariant, provided the
comparator orders it against everything it passes (`h1`), everything it
stops in front of (`h2`), and transports the invariant over the stop
element (`h3`); `P` delimits the elements the hypotheses speak about. -/
theorem pairwise_insertBefore {R : α → α → Prop} {lt : α → α → Bool} {P : α → Prop}
    (h1 : ∀ x y, P x → P y → lt x y = false → R y x)
    (h2 : ∀ x y, P x → P y → lt x y = true → R x y)
    (h3 : ∀ x y z, P x → P y → P z → lt x y = true → R y z → R x z)
    (x : α) (hx : P x) :
    ∀ (acc : List α), (∀ z ∈ acc, P z) → List.Pairwise R acc →
      List.Pairwise R (insertBefore lt x acc) := by
  intro acc
  induction acc with
  | nil => intro _ _; simp [insertBefore]
  | cons y ys ih =>
    intro hacc hpw
    rcases List.pairwise_cons.mp hpw with ⟨hy, hys⟩
    have hPy : P y := hacc y (List.mem_cons_self y ys)
    simp only [insertBefore]
    by_cases hxy : lt x y = true
    · rw [if_pos hxy]
      refine List.pairwise_cons.mpr ⟨?_, hpw⟩
      intro z hz
      rcases List.mem_cons.mp hz with he | hzys
      · exact he ▸ h2 x y hx hPy hxy
      · exact h3 x y z hx hPy (hacc z (List.mem_cons_of_mem y hzys)) hxy (hy z hzys)
    · rw [if_neg hxy]
      refine List.pairwise_cons.mpr ⟨?_, ?_⟩
      · intro w hw
        rcases mem_insertBefore hw with he | hwys
        · exact he ▸ h1 x y hx hPy (by simpa using hxy)
        · exact hy w hwys
      · exact ih (fun z hz => hacc z (List.mem_cons_of_mem y hz)) hys

/-- The insertion fold keeps the `Pairwise` invariant across a whole
list of insertions. -/
theorem pairwise_stableSort_foldl {R : α → α → Prop} {lt : α → α → Bool} {P : α → Prop}
    (h1 : ∀ x y, P x → P y → lt x y = false → R y x)
    (h2 : ∀ x y, P x → P y → lt x y = true → R x y)
    (h3 : ∀ x y z, P x → P y → P z → lt x y = true → R y z → R x z) :
    ∀ (l acc : List α), (∀ z ∈ l, P z) → (∀ z ∈ acc, P z) → List.Pairwise R acc →
      List.Pairwise R (List.foldl (fun acc x => insertBefore lt x acc) acc l) := by
  intro l
  induction l with
  | nil => intro acc _ _ hpw; exact hpw
  | cons x t ih =>
    intro acc hl hacc hpw
    rw [List.foldl_cons]
    have hx : P x := hl x (List.mem_cons_self x t)
    refine ih (insertBefore lt x acc) (fun z hz => hl z (List.mem_cons_of_mem x hz)) ?_ ?_
    · intro z hz
      rcases mem_insertBefore hz with he | h2'
      · exact he ▸ hx
      · exact hacc z h2'
    · exact pairwise_insertBefore h1 h2 h3 x hx acc hacc hpw

/-- The stable sort establishes the `Pairwise` invariant derived from
the comparator. -/
theorem pairwise_stableSort {R : α → α → Prop} {lt : α → α → Bool} {P : α → Prop}
    (h1 : ∀ x y, P x → P y → lt x y = false → R y x)
    (h2 : ∀ x y, P x → P y → lt x y = true → R x y)
    (h3 : ∀ x y z, P x → P y → P z → lt x y = true → R y z → R x z)
    (l : List α) (hl : ∀ z ∈ l, P z) : List.Pairwise R (stableSort lt l) :=
  pairwise_stableSort_foldl h1 h2 h3 l [] hl (by intro z hz; cases hz) List.Pairwise.nil

/-! ### Rank-extraction lemmas -/

/-- A successful `indexOf?` points at an entry carrying the searched
key. -/
theorem indexOf?_some {β : Type} :
    ∀ (l : Obj β) (k : String) (i : Nat), indexOf? k l = some i →
      ∃ h : i < l.length, (l.get ⟨i, h⟩).1 = k := by
  intro l
  induction l with
  | nil => intro k i h; cases h
  | cons p t ih =>
    intro k i h
    simp only [indexOf?] at h
    by_cases hp : (p.1 == k) = true
    · rw [if_pos hp] at h
      cases h
      exact ⟨Nat.succ_pos _, beq_iff_eq.mp hp⟩
    · rw [if_neg hp] at h
      rcases Option.map_eq_some'.mp h with ⟨j, hj, rfl⟩
      rcases ih k j hj with ⟨hlt, hkey⟩
      exact ⟨Nat.succ_lt_succ hlt, hkey⟩

/-- Reading the order map built by `getOrderMap`-style `filterMap`
recovers the `indexOf?` of the key: each produced entry `(p.1, i)` takes
its index from `g p.1` alone, so the first entry found under key `a`
carries `g a`. -/
theorem jsGet_filterMap_idx {β : Type} (g : String → Option Nat) :
    ∀ (l : Obj β) (a : String) (r : Nat),
      jsGet (l.filterMap fun p => (g p.1).map fun i => (p.1, i)) a = some r →
      g a = some r := by
  intro l
  induction l with
  | nil => intro a r h; cases h
  | cons p t ih =>
    intro a r h
    rcases hg : g p.1 with _ | i
    · rw [List.filterMap_cons, hg] at h
      exact ih a r h
    · rw [List.filterMap_cons, hg] at h
      simp only [Option.map_some'] at h
      by_cases hp : (p.1 == a) = true
      · rw [show jsGet ((p.1, i) :: List.filterMap (fun p => (g p.1).map fun i => (p.1, i)) t) a
              = some i from by simp [jsGet, hp]] at h
        cases h
        rw [← beq_iff_eq.mp hp]
        exact hg
      · have hp' : (p.1 == a) = false := by simpa using hp
        rw [jsGet_cons_ne (p := (p.1, i)) hp'] at h
        exact ih a r h

/-- The entry of the sorted key sequence at the rank `getOrderMap`
records for a key is that key's own entry of the breakpoint object. -/
theorem sorted_entry_of_rank (cfg : Obj BpVal) (hnd : (cfg.map Prod.fst).Nodup)
    (a : String) (va : BpVal) (ra : Nat)
    (ha : jsGet cfg a = some va)
    (hra : jsGet (getOrderMap cfg) a = some ra) :
    ∃ h : ra < (sortedBreakpoints cfg).length,
      (sortedBreakpoints cfg).get ⟨ra, h⟩ = (a, va) := by
  have hidx : indexOf? a (sortedBreakpoints cfg) = some ra :=
    jsGet_filterMap_idx (fun k => indexOf? k (sortedBreakpoints cfg)) cfg a ra hra
  rcases indexOf?_some (sortedBreakpoints cfg) a ra hidx with ⟨hlt, hkey⟩
  refine ⟨hlt, ?_⟩
  have hmem : (sortedBreakpoints cfg).get ⟨ra, hlt⟩ ∈ sortedBreakpoints cfg :=
    List.get_mem _ _ _
  have hmem' : (sortedBreakpoints cfg).get ⟨ra, hlt⟩ ∈ cfg :=
    (stableSort_perm bpLt cfg).mem_iff.mp hmem
  have hv := jsGet_of_nodup cfg hnd _ hmem'
  rw [hkey, ha] at hv
  have hv' : ((sortedBreakpoints cfg).get ⟨ra, hlt⟩).2 = va := by
    exact (Option.some.injEq _ _).mp hv.symm
  exact Prod.ext_iff.mpr ⟨hkey, hv'⟩

/-! ### Comparator facts -/

/-- On two finite numbers the comparator sorts strictly by value. -/
theorem bpLt_num (k1 k2 : String) (m n : Int) :
    bpLt (k1, .num m) (k2, .num n) = decide (m < n) := by
  by_cases h : m < n
  · simp [bpLt, bpCmp, isNum, bpGE, h, not_le.mpr h]
  · have h' : n ≤ m := not_lt.mp h
    simp [bpLt, bpCmp, isNum, bpGE, h, h']

/-- A number always sorts strictly before a non-number. -/
theorem bpLt_of_num_nonnum {p q : String × BpVal} (hp : isNum p.2 = true)
    (hq : isNum q.2 = false) : bpLt p q = true := by
  simp [bpLt, bpCmp, hp, hq]

/-- A non-number never sorts strictly before a number. -/
theorem bpLt_of_nonnum_num {p q : String × BpVal} (hp : isNum p.2 = false)
    (hq : isNum q.2 = true) : bpLt p q = false := by
  simp [bpLt, bpCmp, hp, hq]

/-! ### Spread-merge lemmas -/

/-- A key produced by the extra fields wins in the merged object. -/
theorem spreadMerge_jsGet_override {β : Type} {base extra : Obj β} {k : String} {v : β}
    (h : jsGet extra k = some v) : jsGet (spreadMerge base extra) k = some v := by
  unfold spreadMerge
  have hmap : jsGet (base.map fun p => (p.1, (jsGet extra p.1).getD p.2)) k
      = (jsGet base k).map (fun v' => (jsGet extra k).getD v') :=
    jsGet_transformObj (fun k' v' => (jsGet extra k').getD v') base k
  rcases hb : jsGet base k with _ | bv
  · rw [hb, Option.map_none'] at hmap
    rw [jsGet_append_none hmap]
    have hany : (base.any fun p => p.1 == k) = false := any_eq_false_of_jsGet_none base k hb
    have := jsGet_filter_key (fun s => !(base.any fun p => p.1 == s)) extra k
    rw [this, if_pos (by simp [hany])]
    exact h
  · rw [hb, Option.map_some'] at hmap
    refine jsGet_append_some ?_
    rw [hmap, h]
    rfl

/-- A key the extra fields do not produce keeps its base value in the
merged object. -/
theorem spreadMerge_jsGet_keep {β : Type} {base extra : Obj β} {k : String}
    (h : jsGet extra k = none) : jsGet (spreadMerge base extra) k = jsGet base k := by
  unfold spreadMerge
  have hmap : jsGet (base.map fun p => (p.1, (jsGet extra p.1).getD p.2)) k
      = (jsGet base k).map (fun v' => (jsGet extra k).getD v') :=
    jsGet_transformObj (fun k' v' => (jsGet extra k').getD v') base k
  rcases hb : jsGet base k with _ | bv
  · rw [hb, Option.map_none'] at hmap
    rw [jsGet_append_none hmap]
    have := jsGet_filter_key (fun s => !(base.any fun p => p.1 == s)) extra k
    rw [this]
    rw [h]
    simp
  · rw [hb, Option.map_some'] at hmap
    rw [jsGet_append_some hmap]
    rw [h]
    rfl

/-! ### Resolver fold lemmas -/

/-- `getD` of a `getLast?` absorbs a freshly consed head into the
default. -/
theorem getLast?_getD_cons {α : Type} (l : List α) :
    ∀ (a c : α), ((a :: l).getLast?).getD c = (l.getLast?).getD a := by
  induction l with
  | nil => intro a c; rfl
  | cons b t ih =>
    intro a c
    rw [List.getLast?_cons_cons, ih b c, ih b a]

/-- The last-match-wins `reduce`: folding the queries left to right,
overwriting the accumulator on every match, yields the key of the last
matching query (or the starting accumulator when none match). -/
theorem foldl_lastMatch (mm : String → Bool) (qs : Obj String) :
    ∀ (acc : String),
      qs.foldl (fun result p => if mm p.2 then p.1 else result) acc
        = (((qs.filter fun p => mm p.2).map Prod.fst).getLast?).getD acc := by
  induction qs with
  | nil => intro acc; rfl
  | cons p t ih =>
    intro acc
    rw [List.foldl_cons]
    cases hm : mm p.2
    · simp only [hm, Bool.false_eq_true, if_false, List.filter_cons]
      exact ih acc
    · simp only [hm, if_true, List.filter_cons, List.map_cons]
      rw [ih p.1, getLast?_getD_cons]

/-! ### Claim theorems -/

/-- C1 counterexample: with the order map `{a: 0, b: 1}` and current
media type `a` (recorded rank `0`), `getLessThan` does **not** map every
breakpoint to `false` — the claim's all-false output is refuted. -/
theorem C1_cex :
    getLessThan "a" [("a", 0), ("b", 1)] ≠ [("a", false), ("b", false)] := by
  decide

/-- C1 (amended): when the current media type's recorded rank is `0`,
`getLessThan` maps each breakpoint to `true` exactly when that entry's
own rank is positive (`0 < r`): the truthy-rank guard tests the iterated
entry's rank, so only rank-`0` entries are forced to `false`, while every
positive-rank entry compares `0 < r` and comes out `true`. -/
theorem C1_rank_zero_lessThan (order : Obj Nat) (current k : String) (r : Nat)
    (h0 : jsGet order current = some 0)
    (hk : jsGet order k = some r) :
    jsGet (getLessThan current order) k = some (decide (0 < r)) := by
  have h' : jsGet (getLessThan current order) k
      = (jsGet order k).map (fun _ =>
          if natTruthy (jsGet order k) then
            jsLtNum (jsGet order current) (jsGet order k)
          else false) :=
    jsGet_transformObj (fun mediaType (_ : Nat) =>
        if natTruthy (jsGet order mediaType) then
          jsLtNum (jsGet order current) (jsGet order mediaType)
        else false)
      order k
  rw [h', hk, h0]
  by_cases hr : r = 0
  · subst hr
    simp [natTruthy, jsLtNum]
  · simp [natTruthy, jsLtNum, hr, Nat.pos_of_ne_zero hr]

/-- C1 witness: in the order map `{a: 0, b: 1}` with current type `a`,
the rank-`1` breakpoint `b` maps to `true`. -/
theorem C1_rank_zero_lessThan_witness :
    jsGet [("a", 0), ("b", 1)] "a" = some 0 ∧
    jsGet (getLessThan "a" [("a", 0), ("b", 1)]) "b" = some true :=
  ⟨rfl, C1_rank_zero_lessThan [("a", 0), ("b", 1)] "a" "b" 1 rfl rfl⟩

/-- C10: for every order map and every current media type, the entry
whose recorded rank is `0` is mapped to `false` by `getLessThan`: the
truthiness guard tests the iterated entry's own rank, which is `0` and
hence falsy, independently of the current type's rank. -/
theorem C10_rank_zero_entry_false (order : Obj Nat) (current k : String)
    (h0 : jsGet order k = some 0) :
    jsGet (getLessThan current order) k = some false := by
  have h' : jsGet (getLessThan current order) k
      = (jsGet order k).map (fun _ =>
          if natTruthy (jsGet order k) then
            jsLtNum (jsGet order current) (jsGet order k)
          else false) :=
    jsGet_transformObj (fun mediaType (_ : Nat) =>
        if natTruthy (jsGet order mediaType) then
          jsLtNum (jsGet order current) (jsGet order mediaType)
        else false)
      order k
  rw [h', h0]
  simp [natTruthy]

/-- C10 witness: in the order map `{a: 0, b: 1}` with current type `b`
(rank `1`), the rank-`0` breakpoint `a` still maps to `false`. -/
theorem C10_rank_zero_entry_false_witness :
    jsGet [("a", 0), ("b", 1)] "a" = some 0 ∧
    jsGet (getLessThan "b" [("a", 0), ("b", 1)]) "a" = some false :=
  ⟨rfl, C10_rank_zero_entry_false [("a", 0), ("b", 1)] "b" "a" rfl⟩

/-- C2 counterexample: for the config `{a: 100, x: "foo"}` (so `x` is
non-numeric) and current media type `a`, the composed `lessThan` output
maps `x` to `true`, not `false`: `getLessThan` iterates the order map,
whose value at `x` is the rank `1` (a number), so the non-numeric check
never fires. -/
theorem C2_cex :
    jsGet (getLessThan "a" (getOrderMap [("a", BpVal.num 100), ("x", BpVal.str "foo")])) "x"
      ≠ some false := by
  decide

/-- C2 (amended): a breakpoint whose configured value is non-numeric is
mapped to `false` in the `is` output (which iterates the raw config);
`lessThan` and `greaterThan` receive the order map, whose values are the
numeric ranks, so their `typeof` guard always passes and a non-numeric
breakpoint participates in rank comparison like any other (the
counterexample shows it can be `true`). -/
theorem C2_nonNumeric_is_false (cfg : Obj BpVal) (current k : String) (v : BpVal)
    (hk : jsGet cfg k = some v) (hnn : isNum v = false) :
    jsGet (getIs current cfg) k = some false := by
  have h' : jsGet (getIs current cfg) k
      = (jsGet cfg k).map (fun v' =>
          if isNum v' && bpTruthyOpt (jsGet cfg k) then k == current else false) :=
    jsGet_transformObj (fun mediaType breakpoint =>
        if isNum breakpoint && bpTruthyOpt (jsGet cfg mediaType) then
          mediaType == current
        else false)
      cfg k
  rw [h', hk]
  simp [hnn]

/-- C2 witness: the non-numeric breakpoint `x` maps to `false` in `is`
even when it is the current media type. -/
theorem C2_nonNumeric_is_false_witness :
    jsGet [("x", BpVal.str "foo")] "x" = some (BpVal.str "foo") ∧
    jsGet (getIs "x" [("x", BpVal.str "foo")]) "x" = some false :=
  ⟨rfl, C2_nonNumeric_is_false [("x", BpVal.str "foo")] "x" "x" (BpVal.str "foo") rfl rfl⟩

/-- C3 counterexample: for breakpoints `{small: 768, large: 1200}` with
default options and one invocation without an evaluator, the `is` field
is **not** all-false: the factory injects `infinity: Infinity`, whose
value is a truthy number, and the resolved media type is `"infinity"`,
so `is.infinity` is `true`. -/
theorem C3_cex :
    jsGet (createResponsiveStateReducer mediaQueryAsObject
        (some [("small", BpVal.num 768), ("large", BpVal.num 1200)]) {} none
        { type := "@@INIT" }) "is"
      ≠ some (JVal.boolMap [("small", false), ("large", false), ("infinity", false)]) := by
  decide

/-- C3 (amended): the reducer built from `{small: 768, large: 1200}`
with default options, invoked once with no evaluator capability, yields
`mediaType "infinity"`, `orientation null`,
`lessThan = {small: false, large: false, infinity: false}`,
`greaterThan = {small: true, large: true, infinity: false}`, and
`is = {small: false, large: false, infinity: true}` (the claim's
`is.infinity = false` is the one discrepancy). -/
theorem C3_end_to_end :
    createResponsiveStateReducer mediaQueryAsObject
        (some [("small", BpVal.num 768), ("large", BpVal.num 1200)]) {} none
        { type := "@@INIT" }
      = [("_responsiveState", JVal.bool true),
         ("lessThan", JVal.boolMap [("small", false), ("large", false), ("infinity", false)]),
         ("greaterThan", JVal.boolMap [("small", true), ("large", true), ("infinity", false)]),
         ("is", JVal.boolMap [("small", false), ("large", false), ("infinity", true)]),
         ("mediaType", JVal.str "infinity"),
         ("orientation", JVal.nullv),
         ("breakpoints", JVal.bps
            [("small", BpVal.num 768), ("large", BpVal.num 1200), ("infinity", BpVal.inf)])] := by
  rfl

/-- C4: the media-type resolver returns the fallback immediately when no
evaluator capability is present; with an evaluator it folds the query
set in declared order from the fallback and the **last** matching
query's name wins; in particular with `{small: q1, large: q2}` both
matching it returns `"large"`. -/
theorem C4_resolver_last_match (mm : String → Bool) (qs : Obj String) (fb : String) :
    getMediaType none qs fb = fb ∧
    getMediaType (some mm) qs fb
      = ((((qs.filter fun p => mm p.2).map Prod.fst).getLast?).getD fb) ∧
    getMediaType (some (fun _ => true)) [("small", "q1"), ("large", "q2")] fb = "large" := by
  refine ⟨rfl, ?_, rfl⟩
  exact foldl_lastMatch mm qs fb

/-- Proof-side measure for the all-numeric case: the finite numeric
value of a breakpoint value (`0` in the unused non-numeric cases). -/
def numval : BpVal → Int
  | .num n => n
  | _ => 0

/-- A finite-numeric breakpoint value is some `BpVal.num`. -/
theorem num_of_isFiniteNum {v : BpVal} (h : v.isFiniteNum = true) :
    ∃ n : Int, v = BpVal.num n := by
  cases v with
  | num n => exact ⟨n, rfl⟩
  | inf => simp [BpVal.isFiniteNum] at h
  | str s => simp [BpVal.isFiniteNum] at h

/-- C5: in a breakpoint configuration with distinct keys whose values
are all finite numbers, the ranks recorded by `getOrderMap` strictly
increase with the numeric width: a smaller width always receives a
strictly smaller rank (equivalently, the k-th smallest width receives
rank k, the ranks being the 0-based positions of the width-sorted key
sequence). -/
theorem C5_ranks_strictly_increase (cfg : Obj BpVal)
    (hnd : (cfg.map Prod.fst).Nodup)
    (hnum : (cfg.all fun p => p.2.isFiniteNum) = true)
    (a b : String) (x y : Int) (ra rb : Nat)
    (ha : jsGet cfg a = some (BpVal.num x)) (hb : jsGet cfg b = some (BpVal.num y))
    (hxy : x < y)
    (hra : jsGet (getOrderMap cfg) a = some ra)
    (hrb : jsGet (getOrderMap cfg) b = some rb) :
    ra < rb := by
  have hP : ∀ z ∈ cfg, (fun z : String × BpVal => z.2.isFiniteNum = true) z := by
    intro z hz
    exact List.all_eq_true.mp hnum z hz
  have hpw : List.Pairwise (fun p q : String × BpVal => numval p.2 ≤ numval q.2)
      (sortedBreakpoints cfg) := by
    apply pairwise_stableSort (P := fun z : String × BpVal => z.2.isFiniteNum = true)
        ?_ ?_ ?_ cfg hP
    · intro p q hp hq hlt
      obtain ⟨k1, pv⟩ := p
      obtain ⟨k2, qv⟩ := q
      rcases num_of_isFiniteNum hp with ⟨m, rfl⟩
      rcases num_of_isFiniteNum hq with ⟨n, rfl⟩
      rw [bpLt_num] at hlt
      have := of_decide_eq_false hlt
      simp only [numval]
      omega
    · intro p q hp hq hlt
      obtain ⟨k1, pv⟩ := p
      obtain ⟨k2, qv⟩ := q
      rcases num_of_isFiniteNum hp with ⟨m, rfl⟩
      rcases num_of_isFiniteNum hq with ⟨n, rfl⟩
      rw [bpLt_num] at hlt
      have := of_decide_eq_true hlt
      simp only [numval]
      omega
    · intro p q z hp hq hz hlt hqz
      obtain ⟨k1, pv⟩ := p
      obtain ⟨k2, qv⟩ := q
      rcases num_of_isFiniteNum hp with ⟨m, rfl⟩
      rcases num_of_isFiniteNum hq with ⟨n, rfl⟩
      rw [bpLt_num] at hlt
      have := of_decide_eq_true hlt
      simp only [numval] at hqz ⊢
      omega
  rcases sorted_entry_of_rank cfg hnd a (BpVal.num x) ra ha hra with ⟨hla, hga⟩
  rcases sorted_entry_of_rank cfg hnd b (BpVal.num y) rb hb hrb with ⟨hlb, hgb⟩
  rcases Nat.lt_trichotomy ra rb with h | h | h
  · exact h
  · exfalso
    subst h
    have he : (a, BpVal.num x) = (b, BpVal.num y) := by rw [← hga, ← hgb]
    have he2 : BpVal.num x = BpVal.num y := congrArg Prod.snd he
    injection he2 with he3
    omega
  · exfalso
    have hp := List.pairwise_iff_get.mp hpw ⟨rb, hlb⟩ ⟨ra, hla⟩ h
    rw [hga, hgb] at hp
    simp only [numval] at hp
    omega

/-- C5 witness: on `{a: 100, b: 200, c: 300}` the theorem applies and
the recorded ranks of `b` and `c` (1 and 2) are strictly ordered. -/
theorem C5_ranks_strictly_increase_witness :
    jsGet (getOrderMap [("a", BpVal.num 100), ("b", BpVal.num 200), ("c", BpVal.num 300)]) "b"
        = some 1 ∧
    jsGet (getOrderMap [("a", BpVal.num 100), ("b", BpVal.num 200), ("c", BpVal.num 300)]) "c"
        = some 2 ∧
    1 < 2 :=
  ⟨rfl, rfl,
    C5_ranks_strictly_increase
      [("a", BpVal.num 100), ("b", BpVal.num 200), ("c", BpVal.num 300)]
      (by decide) (by decide) "b" "c" 200 300 1 2 rfl rfl (by decide) rfl rfl⟩

/-- C6: in a breakpoint configuration with distinct keys, every
numeric-valued breakpoint (`typeof === 'number'`, including `Infinity`)
receives a strictly smaller rank in the order map than every
non-numeric-valued breakpoint, regardless of declaration order. -/
theorem C6_numeric_before_nonNumeric (cfg : Obj BpVal)
    (hnd : (cfg.map Prod.fst).Nodup)
    (a b : String) (va vb : BpVal) (ra rb : Nat)
    (ha : jsGet cfg a = some va) (hva : isNum va = true)
    (hb : jsGet cfg b = some vb) (hvb : isNum vb = false)
    (hra : jsGet (getOrderMap cfg) a = some ra)
    (hrb : jsGet (getOrderMap cfg) b = some rb) :
    ra < rb := by
  have hpw : List.Pairwise
      (fun p q : String × BpVal => isNum q.2 = true → isNum p.2 = true)
      (sortedBreakpoints cfg) := by
    apply pairwise_stableSort (P := fun _ : String × BpVal => True)
        ?_ ?_ ?_ cfg (fun z _ => trivial)
    · intro p q _ _ hlt hp
      cases hq : isNum q.2
      · rw [bpLt_of_num_nonnum hp hq] at hlt
        cases hlt
      · rfl
    · intro p q _ _ hlt hq
      cases hp : isNum p.2
      · rw [bpLt_of_nonnum_num hp hq] at hlt
        cases hlt
      · rfl
    · intro p q z _ _ _ hlt hqz hz
      have hq := hqz hz
      cases hp : isNum p.2
      · rw [bpLt_of_nonnum_num hp hq] at hlt
        cases hlt
      · rfl
  rcases sorted_entry_of_rank cfg hnd a va ra ha hra with ⟨hla, hga⟩
  rcases sorted_entry_of_rank cfg hnd b vb rb hb hrb with ⟨hlb, hgb⟩
  rcases Nat.lt_trichotomy ra rb with h | h | h
  · exact h
  · exfalso
    subst h
    have he : (a, va) = (b, vb) := by rw [← hga, ← hgb]
    have he2 : va = vb := congrArg Prod.snd he
    rw [he2, hvb] at hva
    cases hva
  · exfalso
    have hp := List.pairwise_iff_get.mp hpw ⟨rb, hlb⟩ ⟨ra, hla⟩ h
    rw [hga, hgb] at hp
    rw [hp hva] at hvb
    cases hvb

/-- C6 witness: on `{x: "foo", a: 100}` the numeric breakpoint `a`
(rank 0) ranks strictly before the non-numeric `x` (rank 1) even though
`x` was declared first. -/
theorem C6_numeric_before_nonNumeric_witness :
    jsGet (getOrderMap [("x", BpVal.str "foo"), ("a", BpVal.num 100)]) "a" = some 0 ∧
    jsGet (getOrderMap [("x", BpVal.str "foo"), ("a", BpVal.num 100)]) "x" = some 1 ∧
    0 < 1 :=
  ⟨rfl, rfl,
    C6_numeric_before_nonNumeric [("x", BpVal.str "foo"), ("a", BpVal.num 100)]
      (by decide) "a" "x" (BpVal.num 100) (BpVal.str "foo") 0 1
      rfl rfl rfl rfl rfl rfl⟩

/-- C7: once the state is initialized (not `undefined`), any event whose
type differs from the recalculate sentinel makes the reducer return the
existing state value itself — in this pure embedding the output is the
very argument `s`, the counterpart of JS reference identity
(`return state`). -/
theorem C7_passthrough_other_events (asObject : Obj BpVal → Obj String)
    (bps0 : Option (Obj BpVal)) (o : Options) (s : Obj JVal) (ev : Event)
    (hne : ev.type ≠ CALCULATE_RESPONSIVE_STATE) :
    createResponsiveStateReducer asObject bps0 o (some s) ev = s := by
  have hcond : (ev.type == CALCULATE_RESPONSIVE_STATE || (some s).isNone) = false := by
    simp [hne]
  unfold createResponsiveStateReducer
  rw [hcond]
  rfl

/-- C7 witness: an unrelated event type on an initialized state returns
that state. -/
theorem C7_passthrough_other_events_witness :
    "SOME_OTHER_ACTION" ≠ CALCULATE_RESPONSIVE_STATE ∧
    createResponsiveStateReducer mediaQueryAsObject none {}
        (some [("marker", JVal.bool true)]) { type := "SOME_OTHER_ACTION" }
      = [("marker", JVal.bool true)] :=
  ⟨by decide,
    C7_passthrough_other_events mediaQueryAsObject none {} [("marker", JVal.bool true)]
      { type := "SOME_OTHER_ACTION" } (by decide)⟩

/-- C8: on every recalculating invocation (recalculate sentinel or
uninitialized state) the reducer spreads the caller-supplied
`extraFields` output over the computed base state, the extra fields
winning on every key collision: any key the extra fields produce has
the extra fields' value in the final state. -/
theorem C8_extraFields_win (asObject : Obj BpVal → Obj String)
    (bps0 : Option (Obj BpVal)) (o : Options) (state : Option (Obj JVal)) (ev : Event)
    (k : String) (v : JVal)
    (hrecalc : ev.type = CALCULATE_RESPONSIVE_STATE ∨ state = none)
    (hx : jsGet (o.extraFields (reducerBase asObject bps0 o state ev)) k = some v) :
    jsGet (createResponsiveStateReducer asObject bps0 o state ev) k = some v := by
  have hcond : (ev.type == CALCULATE_RESPONSIVE_STATE || state.isNone) = true := by
    rcases hrecalc with h | h
    · simp [h]
    · simp [h]
  unfold createResponsiveStateReducer
  rw [hcond]
  simp only [if_true]
  exact spreadMerge_jsGet_override hx

/-- C8 witness: with `extraFields` returning `{mediaType: "override"}`,
the final state's `mediaType` is `"override"` even though the resolver
computed `"infinity"` for the no-evaluator first call. -/
theorem C8_extraFields_win_witness :
    jsGet (createResponsiveStateReducer mediaQueryAsObject none
        { extraFields := fun _ => [("mediaType", JVal.str "override")] } none
        { type := "@@INIT" }) "mediaType"
      = some (JVal.str "override") ∧
    jsGet (reducerBase mediaQueryAsObject none
        { extraFields := fun _ => [("mediaType", JVal.str "override")] } none
        { type := "@@INIT" }) "mediaType"
      = some (JVal.str "infinity") :=
  ⟨C8_extraFields_win mediaQueryAsObject none
      { extraFields := fun _ => [("mediaType", JVal.str "override")] } none
      { type := "@@INIT" } "mediaType" (JVal.str "override") (Or.inr rfl) rfl,
    by decide⟩

/-- C9: for every non-null breakpoint configuration, construction adds
an entry under the configured infinity key with value positive-infinity
to the configuration (`breakpoints[infinity] = Infinity`; the JS
mutation of the caller's object is rendered as the augmented value
`setKey cfg o.infinity .inf`), and — as long as the extra fields do not
themselves produce a `breakpoints` key — the resulting state's
`breakpoints` field is exactly that augmented configuration, passed
through unchanged. -/
theorem C9_infinity_injection (asObject : Obj BpVal → Obj String) (cfg : Obj BpVal)
    (o : Options) (ev : Event)
    (hno : jsGet (o.extraFields (reducerBase asObject (some cfg) o none ev)) "breakpoints"
        = none) :
    jsGet (setKey cfg o.infinity BpVal.inf) o.infinity = some BpVal.inf ∧
    jsGet (createResponsiveStateReducer asObject (some cfg) o none ev) "breakpoints"
      = some (JVal.bps (setKey cfg o.infinity BpVal.inf)) := by
  constructor
  · exact jsGet_setKey_self cfg o.infinity BpVal.inf
  · have hcond : (ev.type == CALCULATE_RESPONSIVE_STATE || (none : Option (Obj JVal)).isNone)
        = true := by simp
    unfold createResponsiveStateReducer
    rw [hcond]
    simp only [if_true]
    rw [spreadMerge_jsGet_keep hno]
    show jsGet (buildResponsiveState (augmentBreakpoints (some cfg) o.infinity) _ _ o none ev)
        "breakpoints" = _
    unfold buildResponsiveState
    simp only [jsGet]
    simp [augmentBreakpoints]

/-- C9 witness: with default options, the config `{small: 768}` is
augmented with `infinity: Infinity` and handed through to the state's
`breakpoints` field. -/
theorem C9_infinity_injection_witness :
    jsGet (createResponsiveStateReducer mediaQueryAsObject (some [("small", BpVal.num 768)])
        {} none { type := "@@INIT" }) "breakpoints"
      = some (JVal.bps [("small", BpVal.num 768), ("infinity", BpVal.inf)]) :=
  (C9_infinity_injection mediaQueryAsObject [("small", BpVal.num 768)] {}
      { type := "@@INIT" } rfl).2
